import Mathlib

/-!
Verification of the duplicate-clustering engine of
`src/audio_metrics.py` (class `AudioAnalyzer`):

* `compare_audio_fingerprints` (lines 661-683) — Hamming-style similarity;
* `find_duplicates_by_fingerprints` (lines 150-237) — exact bucketing,
  prefix bucketing and greedy anchor grouping;
* `get_unique_files` (lines 717-731);
* the statistics of `comprehensive_duplicate_analysis` (lines 816-897).

Modelling conventions: file identifiers and fingerprints are `String`;
Python dicts (insertion ordered) are association lists in iteration order;
Python float arithmetic on similarity scores is modelled exactly over `ℚ`
(the scores involved are small exact fractions); a Python function that can
raise is modelled with `Option`.
-/

/-- Value of one ASCII hexadecimal digit. -/
def hexVal? (c : Char) : Option Nat :=
  if '0' ≤ c ∧ c ≤ '9' then some (c.toNat - '0'.toNat)
  else if 'a' ≤ c ∧ c ≤ 'f' then some (c.toNat - 'a'.toNat + 10)
  else if 'A' ≤ c ∧ c ≤ 'F' then some (c.toNat - 'A'.toNat + 10)
  else none

/-- Digit tail of Python's base-16 integer literal grammar: hex digits with
single underscores allowed between digits. -/
def hexTail : List Char → Bool
  | [] => true
  | '_' :: c :: rest => (hexVal? c).isSome && hexTail rest
  | c :: rest => (hexVal? c).isSome && hexTail rest

/-- Nonempty digit body: a hex digit followed by a valid tail. -/
def hexBody : List Char → Bool
  | [] => false
  | c :: rest => (hexVal? c).isSome && hexTail rest

/-- Numeric value of a list of hex digits (underscores skipped). -/
def hexDigitsVal (cs : List Char) : Nat :=
  (cs.filter (fun c => c ≠ '_')).foldl (fun n c => 16 * n + ((hexVal? c).getD 0)) 0

/-- Model of Python `int(s, 16)`: optional surrounding whitespace, optional
sign, optional `0x`/`0X` marker (which may be followed by one underscore),
then hex digits with single underscores between digits.  `none` models the
`ValueError` raised on any other string (ASCII digits are modelled). -/
def pythonIntHex? (s : String) : Option Int :=
  let cs := ((s.data.dropWhile Char.isWhitespace).reverse.dropWhile Char.isWhitespace).reverse
  let sign : Int := match cs with
    | '-' :: _ => -1
    | _ => 1
  let cs1 := match cs with
    | '+' :: rest => rest
    | '-' :: rest => rest
    | _ => cs
  let cs2 := match cs1 with
    | '0' :: 'x' :: rest => (match rest with | '_' :: r => r | _ => rest)
    | '0' :: 'X' :: rest => (match rest with | '_' :: r => r | _ => rest)
    | _ => cs1
  if hexBody cs2 then some (sign * (hexDigitsVal cs2 : Int)) else none

/-- Model of Python `bin(n)[2:]`: the binary digits of `n` without leading
zeros (`"0"` for zero); for negative `n`, `bin` yields `-0b...` so the slice
`[2:]` keeps a leading `'b'`. -/
def pythonBin (n : Int) : List Char :=
  if n < 0 then 'b' :: Nat.toDigits 2 n.natAbs else Nat.toDigits 2 n.natAbs

/-- Python `str.zfill w` on our sign-free inputs: left-pad with `'0'`. -/
def zfill (cs : List Char) (w : Nat) : List Char :=
  List.replicate (w - cs.length) '0' ++ cs

/-- `sum(1 for a, b in zip(bin1, bin2) if a == b)` (line 677). -/
def countMatches (a b : List Char) : Nat :=
  ((a.zip b).filter (fun p => p.1 = p.2)).length

/-- `AudioAnalyzer.compare_audio_fingerprints` (lines 661-683): similarity
of two fingerprints in `[0, 100]`.  Equal strings (also both empty) score
100; if exactly one is empty the score is 0; otherwise both are decoded as
hex, rendered in binary, left-padded to a common length, and the fraction
of matching bit positions is scaled to 100.  A failed decode
(`ValueError`) yields 0. -/
def compare_audio_fingerprints (fp1 fp2 : String) : ℚ :=
  if fp1 = "" ∨ fp2 = "" ∨ fp1 = fp2 then
    (if fp1 = fp2 then 100 else 0)
  else
    match pythonIntHex? fp1, pythonIntHex? fp2 with
    | some n1, some n2 =>
      let bin1 := zfill (pythonBin n1) (fp1.length * 4)
      let bin2 := zfill (pythonBin n2) (fp2.length * 4)
      let maxLen := max bin1.length bin2.length
      let b1 := zfill bin1 maxLen
      let b2 := zfill bin2 maxLen
      ((countMatches b1 b2 : ℚ) / (b1.length : ℚ)) * 100
    | _, _ => 0

/-- One step of building a Python dict of lists: append `v` to the bucket
of key `k`, creating the bucket at the end on first sight of `k`. -/
def addToBucket {β : Type} (bs : List (String × List β)) (k : String) (v : β) :
    List (String × List β) :=
  match bs with
  | [] => [(k, [v])]
  | b :: rest => if b.1 = k then (b.1, b.2 ++ [v]) :: rest else b :: addToBucket rest k v

/-- Bucket the items of `l` by `key`, storing `val` of each item, in
Python-dict iteration order. -/
def bucketBy {α β : Type} (key : α → String) (val : α → β) (l : List α) :
    List (String × List β) :=
  l.foldl (fun acc a => addToBucket acc (key a) (val a)) []

/-- Line 161: `{fp: files for fp, files in fingerprints.items() if files}` —
keep the entries whose fingerprint is neither null nor empty (the file
paths are the dict keys; the source's variable names are swapped). -/
def validFingerprints (fps : List (String × Option String)) : List (String × String) :=
  fps.filterMap (fun pr => match pr.2 with
    | some f => if f = "" then none else some (pr.1, f)
    | none => none)

/-- Phase 1 (lines 167-174): bucket files by exact fingerprint string
equality. -/
def fingerprint_to_files (valid : List (String × String)) : List (String × List String) :=
  bucketBy Prod.snd Prod.fst valid

/-- Line 178: fingerprint buckets holding more than one file. -/
def exact_duplicates (fps : List (String × Option String)) : List (String × List String) :=
  (fingerprint_to_files (validFingerprints fps)).filter (fun b => 1 < b.2.length)

/-- Line 182: `{fp: files[0] ... if len(files) == 1}` — the lone member of
every size-one fingerprint bucket, keyed by its fingerprint. -/
def single_files (fps : List (String × Option String)) : List (String × String) :=
  (fingerprint_to_files (validFingerprints fps)).filterMap (fun b => match b.2 with
    | [x] => some (b.1, x)
    | _ => none)

/-- Lines 184-190: bucket the singles whose fingerprint has at least 8
characters by the first 8 characters of the fingerprint; each bucket holds
`(fingerprint, filepath)` pairs. -/
def hash_prefixes (singles : List (String × String)) :
    List (String × List (String × String)) :=
  singles.foldl (fun acc e =>
    if 8 ≤ e.1.length then addToBucket acc (String.mk (e.1.data.take 8)) e else acc) []

/-- Inner scan (lines 208-215): walk the candidates after the anchor
fingerprint `fp1`, skipping fingerprints already in the processed set;
a candidate with similarity ≥ threshold joins the group and is marked
processed.  Returns the joined file paths and the final processed set. -/
def collectGroup (t : ℚ) (fp1 : String) :
    List (String × String) → List String → List String × List String
  | [], processed => ([], processed)
  | e :: rest, processed =>
    if e.1 ∈ processed then collectGroup t fp1 rest processed
    else if t ≤ compare_audio_fingerprints fp1 e.1 then
      let r := collectGroup t fp1 rest (e.1 :: processed)
      (e.2 :: r.1, r.2)
    else collectGroup t fp1 rest processed

/-- Outer loop (lines 202-218): every not-yet-processed candidate anchors a
group built by `collectGroup`; groups that stay of size one are dropped. -/
def groupCandidates (t : ℚ) :
    List (String × String) → List String → List (String × List String)
  | [], _ => []
  | e :: rest, processed =>
    if e.1 ∈ processed then groupCandidates t rest processed
    else
      let r := collectGroup t e.1 rest (e.1 :: processed)
      (if r.1 = [] then [] else [(e.2, e.2 :: r.1)]) ++ groupCandidates t rest r.2

/-- Phase 3 (lines 196-218): run the greedy grouping inside every prefix
bucket with at least two candidates; the processed set restarts per
bucket.  The group keys are file paths, which are unique across buckets,
so the dict of groups is the concatenation in bucket order. -/
def near_duplicate_groups (t : ℚ) (singles : List (String × String)) :
    List (String × List String) :=
  (hash_prefixes singles).flatMap (fun b =>
    if b.2.length ≤ 1 then [] else groupCandidates t b.2 [])

/-- `AudioAnalyzer.find_duplicates_by_fingerprints` (lines 150-237):
exact-duplicate buckets become groups keyed by their first file (line 226);
near-duplicate groups are added afterwards (line 229).  No exact key can
equal a near key because every file path lies in exactly one fingerprint
bucket, so the final dict is the concatenation. -/
def find_duplicates_by_fingerprints (fps : List (String × Option String)) (t : ℚ) :
    List (String × List String) :=
  (exact_duplicates fps).map (fun b => (b.2.headI, b.2))
    ++ near_duplicate_groups t (single_files fps)

/-- `AudioAnalyzer.get_unique_files` (lines 717-731): the input paths that
belong to no duplicate group, in input order. -/
def get_unique_files (all_filepaths : List String)
    (duplicate_groups : List (String × List String)) : List String :=
  all_filepaths.filter (fun p => !(duplicate_groups.any (fun g => decide (p ∈ g.2))))

/-- The summary fields of the dict built by
`comprehensive_duplicate_analysis` (lines 872-889). -/
structure AnalysisStats where
  total_files : Nat
  unique_count : Nat
  group_count : Nat
  total_duplicates : Nat
  fingerprint_success_rate : ℚ
  unique_file_paths : List String
deriving DecidableEq

/-- `AudioAnalyzer.comprehensive_duplicate_analysis` (lines 816-897):
fingerprint generation is I/O, modelled by an opaque map `gen` from path to
optional fingerprint applied in input order (`generate_fingerprints_bulk`,
lines 131-148); then duplicates are clustered at threshold 98 and unique
files identified.  `none` models a raise: the only raise reachable in the
modelled fields is the `ZeroDivisionError` of line 878
(`... / len(filepaths) * 100`) when `filepaths` is empty. -/
def comprehensive_duplicate_analysis (filepaths : List String)
    (gen : String → Option String) : Option AnalysisStats :=
  let fingerprints := filepaths.map (fun p => (p, gen p))
  let duplicate_groups := find_duplicates_by_fingerprints fingerprints 98
  let unique_files := get_unique_files filepaths duplicate_groups
  let total_duplicates := (duplicate_groups.map (fun g => g.2.length - 1)).sum
  if filepaths.length = 0 then none
  else some ⟨filepaths.length, unique_files.length, duplicate_groups.length,
    total_duplicates,
    ((validFingerprints fingerprints).length : ℚ) / (filepaths.length : ℚ) * 100,
    unique_files⟩

/-- Spec §4.3 step 3, written from the spec's words: each ungrouped file
starts a candidate group; the remaining ungrouped members whose similarity
to the group's first member (the anchor) is ≥ threshold join the group and
leave the pool; only groups with ≥ 2 members are emitted, keyed by the
anchor.  Members are never compared against non-anchor members. -/
def specAnchorGroups (t : ℚ) : List (String × String) → List (String × List String)
  | [] => []
  | e :: rest =>
    let joining := rest.filter (fun x => decide (t ≤ compare_audio_fingerprints e.1 x.1))
    let remaining := rest.filter (fun x => !(decide (t ≤ compare_audio_fingerprints e.1 x.1)))
    (if 2 ≤ (e.2 :: joining.map Prod.snd).length then
      [(e.2, e.2 :: joining.map Prod.snd)] else [])
      ++ specAnchorGroups t remaining
termination_by l => l.length
decreasing_by
  simp only [List.length_cons]
  exact Nat.lt_succ_of_le (List.length_filter_le _ _)

/-- Spec §4.3, written from the spec's words: discard fingerprints shorter
than `prefixLen`, bucket the rest by the first `prefixLen` characters of
the fingerprint, and run anchor grouping inside each bucket. -/
def specGroupNear (singles : List (String × String)) (prefixLen : Nat) (t : ℚ) :
    List (String × List String) :=
  (bucketBy (fun e : String × String => String.mk (e.1.data.take prefixLen)) (fun e => e)
      (singles.filter (fun e => prefixLen ≤ e.1.length))).flatMap
    (fun b => specAnchorGroups t b.2)

/-- Spec §4.2: the input files carrying (truthy) fingerprint `f`, in input
order. -/
def filesWithFingerprint (fps : List (String × Option String)) (f : String) : List String :=
  ((validFingerprints fps).filter (fun e => decide (e.2 = f))).map Prod.fst

/-- All file paths grouped across a list of duplicate groups, in order. -/
def groupMembers (groups : List (String × List String)) : List String :=
  groups.flatMap Prod.snd

/-- Assoc-list lookup keyed by strings (model of Python dict access). -/
def lookupB {β : Type} (k : String) : List (String × List β) → Option (List β)
  | [] => none
  | b :: rest => if b.1 = k then some b.2 else lookupB k rest

theorem lookupB_addToBucket {β : Type} (bs : List (String × List β)) (k : String) (v : β)
    (k' : String) :
    lookupB k' (addToBucket bs k v)
      = if k' = k then some (((lookupB k bs).getD []) ++ [v]) else lookupB k' bs := by
  induction bs with
  | nil =>
    simp only [addToBucket, lookupB]
    by_cases h : k' = k
    · subst h; simp [lookupB]
    · have h2 : ¬ k = k' := fun h' => h h'.symm
      simp [lookupB, h, h2]
  | cons b rest ih =>
    simp only [addToBucket]
    by_cases hb : b.1 = k
    · subst hb
      by_cases h' : k' = b.1
      · subst h'; simp [lookupB]
      · have h2 : ¬ b.1 = k' := fun h => h' h.symm
        simp [lookupB, h', h2]
    · simp only [if_neg hb, lookupB]
      by_cases h' : b.1 = k'
      · have : ¬ k' = k := by rintro rfl; exact hb h'
        simp [h', this]
      · simp [h', ih]

theorem keys_addToBucket {β : Type} (bs : List (String × List β)) (k : String) (v : β) :
    (addToBucket bs k v).map Prod.fst
      = if k ∈ bs.map Prod.fst then bs.map Prod.fst else bs.map Prod.fst ++ [k] := by
  induction bs with
  | nil => simp [addToBucket]
  | cons b rest ih =>
    simp only [addToBucket]
    by_cases hb : b.1 = k
    · subst hb; simp
    · have h2 : ¬ k = b.1 := fun h => hb h.symm
      simp only [if_neg hb, List.map_cons, List.mem_cons, h2, false_or, ih]
      by_cases hm : k ∈ rest.map Prod.fst <;> simp [hm]

theorem lookupB_isSome_iff {β : Type} (bs : List (String × List β)) (k : String) :
    (lookupB k bs).isSome ↔ k ∈ bs.map Prod.fst := by
  induction bs with
  | nil => simp [lookupB]
  | cons b rest ih =>
    simp only [lookupB, List.map_cons, List.mem_cons]
    by_cases hb : b.1 = k
    · simp [hb]
    · have h2 : ¬ k = b.1 := fun h => hb h.symm
      simp [hb, h2, ih]

theorem lookupB_of_mem_of_nodup {β : Type} {bs : List (String × List β)}
    (hnd : (bs.map Prod.fst).Nodup) {b : String × List β} (hb : b ∈ bs) :
    lookupB b.1 bs = some b.2 := by
  induction bs with
  | nil => cases hb
  | cons c rest ih =>
    rcases List.mem_cons.1 hb with rfl | hb'
    · simp [lookupB]
    · have hc : c.1 ≠ b.1 := by
        intro h
        exact (List.nodup_cons.1 hnd).1 (h ▸ List.mem_map_of_mem Prod.fst hb')
      simp only [lookupB, if_neg hc]
      exact ih (List.nodup_cons.1 hnd).2 hb'

theorem bucketBy_snoc {α β : Type} (key : α → String) (val : α → β) (l : List α) (a : α) :
    bucketBy key val (l ++ [a]) = addToBucket (bucketBy key val l) (key a) (val a) := by
  simp [bucketBy]

theorem nodup_keys_bucketBy {α β : Type} (key : α → String) (val : α → β) (l : List α) :
    ((bucketBy key val l).map Prod.fst).Nodup := by
  induction l using List.reverseRecOn with
  | nil => simp [bucketBy]
  | append_singleton l a ih =>
    rw [bucketBy_snoc, keys_addToBucket]
    by_cases hm : key a ∈ (bucketBy key val l).map Prod.fst
    · simpa [hm] using ih
    · rw [if_neg hm]
      exact List.nodup_append.2 ⟨ih, List.nodup_singleton _, by
        simpa [List.disjoint_singleton] using hm⟩

theorem lookupB_bucketBy {α β : Type} (key : α → String) (val : α → β) (l : List α)
    (k : String) :
    lookupB k (bucketBy key val l)
      = if (l.filter (fun a => decide (key a = k))).isEmpty then none
        else some ((l.filter (fun a => decide (key a = k))).map val) := by
  induction l using List.reverseRecOn with
  | nil => simp [bucketBy, lookupB]
  | append_singleton l a ih =>
    rw [bucketBy_snoc, lookupB_addToBucket, List.filter_append]
    by_cases hk : key a = k
    · simp only [if_pos hk, List.filter_cons, hk, List.filter_nil, ih]
      by_cases he : (l.filter (fun a => decide (key a = k))) = [] <;>
        simp [he, List.isEmpty_iff]
    · have h2 : ¬ k = key a := fun h => hk h.symm
      simp [hk, h2, ih]

theorem bucket_snd_char {α β : Type} {key : α → String} {val : α → β} {l : List α}
    {b : String × List β} (hb : b ∈ bucketBy key val l) :
    b.2 = (l.filter (fun a => decide (key a = b.1))).map val
      ∧ (l.filter (fun a => decide (key a = b.1))) ≠ [] := by
  have h1 := lookupB_of_mem_of_nodup (nodup_keys_bucketBy key val l) hb
  rw [lookupB_bucketBy] at h1
  by_cases he : (l.filter (fun a => decide (key a = b.1))).isEmpty
  · simp [he] at h1
  · simp only [if_neg he] at h1
    refine ⟨(Option.some.injEq _ _ ▸ h1).symm, ?_⟩
    simpa [List.isEmpty_iff] using he

theorem mem_keys_bucketBy {α β : Type} (key : α → String) (val : α → β) (l : List α)
    (k : String) :
    k ∈ (bucketBy key val l).map Prod.fst
      ↔ (l.filter (fun a => decide (key a = k))) ≠ [] := by
  rw [← lookupB_isSome_iff, lookupB_bucketBy]
  by_cases he : (l.filter (fun a => decide (key a = k))).isEmpty
  · simp [he, List.isEmpty_iff.1 he]
  · simp only [if_neg he]
    simpa [List.isEmpty_iff] using he

theorem entry_of_mem_bucket {α β : Type} {key : α → String} {val : α → β} {l : List α}
    {b : String × List β} (hb : b ∈ bucketBy key val l) {p : β} (hp : p ∈ b.2) :
    ∃ a ∈ l, val a = p ∧ key a = b.1 := by
  rw [(bucket_snd_char hb).1] at hp
  rcases List.mem_map.1 hp with ⟨a, ha, hv⟩
  rcases List.mem_filter.1 ha with ⟨hal, hk⟩
  exact ⟨a, hal, hv, of_decide_eq_true hk⟩

theorem bucket_eq_of_key_eq {α β : Type} {key : α → String} {val : α → β} {l : List α}
    {b₁ b₂ : String × List β} (h₁ : b₁ ∈ bucketBy key val l) (h₂ : b₂ ∈ bucketBy key val l)
    (hk : b₁.1 = b₂.1) : b₁ = b₂ :=
  List.inj_on_of_nodup_map (nodup_keys_bucketBy key val l) h₁ h₂ hk

theorem flat_addToBucket {β : Type} (bs : List (String × List β)) (k : String) (v : β) :
    ((addToBucket bs k v).flatMap Prod.snd).Perm (bs.flatMap Prod.snd ++ [v]) := by
  induction bs with
  | nil => simp [addToBucket]
  | cons b rest ih =>
    simp only [addToBucket]
    by_cases hb : b.1 = k
    · simp only [if_pos hb, List.flatMap_cons, List.append_assoc]
      exact ((List.perm_append_singleton v (rest.flatMap Prod.snd)).symm).append_left b.2
    · simp only [if_neg hb, List.flatMap_cons]
      have h1 := ih.append_left b.2
      have h2 : b.2 ++ (rest.flatMap Prod.snd ++ [v])
          = (b.2 ++ rest.flatMap Prod.snd) ++ [v] := by simp [List.append_assoc]
      exact h2 ▸ h1

theorem flat_bucketBy_perm {α β : Type} (key : α → String) (val : α → β) (l : List α) :
    ((bucketBy key val l).flatMap Prod.snd).Perm (l.map val) := by
  induction l using List.reverseRecOn with
  | nil => simp [bucketBy]
  | append_singleton l a ih =>
    rw [bucketBy_snoc]
    refine (flat_addToBucket _ _ _).trans ?_
    have h1 := ih.append_right [val a]
    simpa using h1

theorem collectGroup_fst (t : ℚ) (fp1 : String) (cands : List (String × String))
    (h : (cands.map Prod.fst).Nodup) (P : List String) :
    (collectGroup t fp1 cands P).1
      = (cands.filter (fun e =>
          decide (t ≤ compare_audio_fingerprints fp1 e.1) && decide (e.1 ∉ P))).map Prod.snd := by
  induction cands generalizing P with
  | nil => simp [collectGroup]
  | cons e rest ih =>
    have hnd : (rest.map Prod.fst).Nodup := (List.nodup_cons.1 (by simpa using h)).2
    have hni : e.1 ∉ rest.map Prod.fst := (List.nodup_cons.1 (by simpa using h)).1
    simp only [collectGroup, List.filter_cons]
    by_cases hP : e.1 ∈ P
    · simp [hP, ih hnd P]
    · by_cases hsim : t ≤ compare_audio_fingerprints fp1 e.1
      · simp only [if_neg hP, if_pos hsim, hP, hsim, decide_True, not_false_eq_true,
          decide_true_eq_true, Bool.and_self, ite_true]
        rw [ih hnd (e.1 :: P)]
        have hcongr : ∀ x ∈ rest,
            (decide (t ≤ compare_audio_fingerprints fp1 x.1) && decide (x.1 ∉ e.1 :: P))
              = (decide (t ≤ compare_audio_fingerprints fp1 x.1) && decide (x.1 ∉ P)) := by
          intro x hx
          have : x.1 ≠ e.1 := by
            intro hxe
            exact hni (hxe ▸ List.mem_map_of_mem Prod.fst hx)
          simp [List.mem_cons, this]
        rw [List.filter_congr hcongr]
        simp
      · simp [hP, hsim, ih hnd P]

theorem collectGroup_snd_mem (t : ℚ) (fp1 : String) (cands : List (String × String))
    (h : (cands.map Prod.fst).Nodup) (P : List String) (x : String) :
    x ∈ (collectGroup t fp1 cands P).2
      ↔ x ∈ P ∨ ∃ e ∈ cands, e.1 = x ∧ e.1 ∉ P ∧ t ≤ compare_audio_fingerprints fp1 e.1 := by
  induction cands generalizing P with
  | nil => simp [collectGroup]
  | cons e rest ih =>
    have hnd : (rest.map Prod.fst).Nodup := (List.nodup_cons.1 (by simpa using h)).2
    have hni : e.1 ∉ rest.map Prod.fst := (List.nodup_cons.1 (by simpa using h)).1
    simp only [collectGroup]
    by_cases hP : e.1 ∈ P
    · rw [if_pos hP, ih hnd P]
      constructor
      · rintro (hx | ⟨e', he', rest'⟩)
        · exact Or.inl hx
        · exact Or.inr ⟨e', List.mem_cons_of_mem e he', rest'⟩
      · rintro (hx | ⟨e', he', h1, h2, h3⟩)
        · exact Or.inl hx
        · rcases List.mem_cons.1 he' with rfl | he''
          · exact absurd hP h2
          · exact Or.inr ⟨e', he'', h1, h2, h3⟩
    · by_cases hsim : t ≤ compare_audio_fingerprints fp1 e.1
      · rw [if_neg hP, if_pos hsim]
        have : (collectGroup t fp1 rest (e.1 :: P)).2
            = (let r := collectGroup t fp1 rest (e.1 :: P); (e.2 :: r.1, r.2)).2 := rfl
        rw [← this, ih hnd (e.1 :: P)]
        constructor
        · rintro (hx | ⟨e', he', h1, h2, h3⟩)
          · rcases List.mem_cons.1 hx with rfl | hxP
            · exact Or.inr ⟨e, List.mem_cons_self e rest, rfl, hP, hsim⟩
            · exact Or.inl hxP
          · refine Or.inr ⟨e', List.mem_cons_of_mem e he', h1, fun hc => h2 ?_, h3⟩
            exact List.mem_cons_of_mem e.1 hc
        · rintro (hx | ⟨e', he', h1, h2, h3⟩)
          · exact Or.inl (List.mem_cons_of_mem e.1 hx)
          · rcases List.mem_cons.1 he' with rfl | he''
            · exact Or.inl (h1 ▸ List.mem_cons_self e'.1 P)
            · have hne : e'.1 ≠ e.1 := by
                intro hc
                exact hni (hc ▸ List.mem_map_of_mem Prod.fst he'')
              refine Or.inr ⟨e', he'', h1, ?_, h3⟩
              simp [List.mem_cons, hne, h2]
      · rw [if_neg hP, if_neg hsim, ih hnd P]
        constructor
        · rintro (hx | ⟨e', he', rest'⟩)
          · exact Or.inl hx
          · exact Or.inr ⟨e', List.mem_cons_of_mem e he', rest'⟩
        · rintro (hx | ⟨e', he', h1, h2, h3⟩)
          · exact Or.inl hx
          · rcases List.mem_cons.1 he' with rfl | he''
            · exact absurd h3 hsim
            · exact Or.inr ⟨e', he'', h1, h2, h3⟩

theorem emit_if_eq (x : String) (l : List String) :
    (if l = [] then ([] : List (String × List String)) else [(x, x :: l)])
      = (if 2 ≤ (x :: l).length then [(x, x :: l)] else []) := by
  cases l <;> simp

theorem groupCandidates_eq_specAnchor (t : ℚ) (cands : List (String × String))
    (h : (cands.map Prod.fst).Nodup) (P : List String) :
    groupCandidates t cands P
      = specAnchorGroups t (cands.filter (fun e => decide (e.1 ∉ P))) := by
  induction cands generalizing P with
  | nil => simp [groupCandidates, specAnchorGroups]
  | cons e rest ih =>
    have hnd : (rest.map Prod.fst).Nodup := (List.nodup_cons.1 (by simpa using h)).2
    have hni : e.1 ∉ rest.map Prod.fst := (List.nodup_cons.1 (by simpa using h)).1
    have hinj : ∀ e' ∈ rest, ∀ e'' ∈ rest, e'.1 = e''.1 → e' = e'' := by
      intro a ha b hb hab
      exact List.inj_on_of_nodup_map hnd ha hb hab
    simp only [groupCandidates, List.filter_cons]
    by_cases hP : e.1 ∈ P
    · simp [hP, ih hnd P]
    · have hPd : decide (e.1 ∉ P) = true := by simp [hP]
      rw [if_neg hP, hPd, if_pos rfl, specAnchorGroups]
      have hA : (collectGroup t e.1 rest (e.1 :: P)).1
          = ((rest.filter (fun e' => decide (e'.1 ∉ P))).filter
              (fun x => decide (t ≤ compare_audio_fingerprints e.1 x.1))).map Prod.snd := by
        rw [collectGroup_fst t e.1 rest hnd (e.1 :: P), List.filter_filter]
        refine congrArg (List.map Prod.snd) (List.filter_congr ?_)
        intro x hx
        have hne : x.1 ≠ e.1 := fun hc => hni (hc ▸ List.mem_map_of_mem Prod.fst hx)
        by_cases hxP : x.1 ∈ P <;>
          by_cases hxs : t ≤ compare_audio_fingerprints e.1 x.1 <;>
          simp [hxP, hxs, List.mem_cons, hne]
      have hB : rest.filter (fun x => decide (x.1 ∉ (collectGroup t e.1 rest (e.1 :: P)).2))
          = (rest.filter (fun e' => decide (e'.1 ∉ P))).filter
              (fun x => !(decide (t ≤ compare_audio_fingerprints e.1 x.1))) := by
        rw [List.filter_filter]
        refine List.filter_congr ?_
        intro x hx
        have hne : x.1 ≠ e.1 := fun hc => hni (hc ▸ List.mem_map_of_mem Prod.fst hx)
        have hmem : x.1 ∈ (collectGroup t e.1 rest (e.1 :: P)).2
            ↔ x.1 ∈ P ∨ (x.1 ∉ P ∧ t ≤ compare_audio_fingerprints e.1 x.1) := by
          rw [collectGroup_snd_mem t e.1 rest hnd (e.1 :: P) x.1]
          constructor
          · rintro (hx1 | ⟨e', he', h1, h2, h3⟩)
            · rcases List.mem_cons.1 hx1 with hc | hx1'
              · exact absurd hc hne
              · exact Or.inl hx1'
            · have : e' = x := hinj e' he' x hx h1
              subst this
              refine Or.inr ⟨fun hc => h2 (List.mem_cons_of_mem e.1 hc), h3⟩
          · rintro (hx1 | ⟨h1, h2⟩)
            · exact Or.inl (List.mem_cons_of_mem e.1 hx1)
            · refine Or.inr ⟨x, hx, rfl, ?_, h2⟩
              simp [List.mem_cons, hne, h1]
        by_cases hxP : x.1 ∈ P <;>
          by_cases hxs : t ≤ compare_audio_fingerprints e.1 x.1 <;>
          simp [hmem, hxP, hxs]
      rw [ih hnd (collectGroup t e.1 rest (e.1 :: P)).2, hB, hA, emit_if_eq]

theorem hash_prefixes_eq (singles : List (String × String)) :
    hash_prefixes singles
      = bucketBy (fun e : String × String => String.mk (e.1.data.take 8)) (fun e => e)
          (singles.filter (fun e => decide (8 ≤ e.1.length))) := by
  induction singles using List.reverseRecOn with
  | nil => simp [hash_prefixes, bucketBy]
  | append_singleton l a ih =>
    by_cases ha : 8 ≤ a.1.length
    · simp only [hash_prefixes, List.foldl_append, List.foldl_cons, List.foldl_nil,
        if_pos ha, List.filter_append]
      rw [← hash_prefixes, ih]
      simp [ha, bucketBy_snoc]
    · simp only [hash_prefixes, List.foldl_append, List.foldl_cons, List.foldl_nil,
        if_neg ha, List.filter_append]
      rw [← hash_prefixes, ih]
      simp [ha]

theorem specAnchorGroups_nil (t : ℚ) : specAnchorGroups t [] = [] := by
  rw [specAnchorGroups]

theorem specAnchorGroups_singleton (t : ℚ) (e : String × String) :
    specAnchorGroups t [e] = [] := by
  rw [specAnchorGroups]
  simp [specAnchorGroups_nil]

theorem specAnchorGroups_shape_aux (t : ℚ) (n : Nat) :
    ∀ (cands : List (String × String)), cands.length ≤ n →
      ∀ g ∈ specAnchorGroups t cands, 2 ≤ g.2.length ∧ g.2.headI = g.1 := by
  induction n with
  | zero =>
    intro cands hlen g hg
    rw [List.length_eq_zero.1 (Nat.le_zero.1 hlen), specAnchorGroups_nil] at hg
    cases hg
  | succ n ih =>
    intro cands hlen g hg
    match cands with
    | [] => rw [specAnchorGroups_nil] at hg; cases hg
    | e :: rest =>
      rw [specAnchorGroups] at hg
      rcases List.mem_append.1 hg with h1 | h2
      · by_cases hc : 2 ≤ (e.2 :: ((rest.filter
            (fun x => decide (t ≤ compare_audio_fingerprints e.1 x.1))).map Prod.snd)).length
        · rw [if_pos hc] at h1
          rcases List.mem_singleton.1 h1 with rfl
          exact ⟨hc, rfl⟩
        · rw [if_neg hc] at h1; cases h1
      · have hr : (rest.filter
            (fun x => !(decide (t ≤ compare_audio_fingerprints e.1 x.1)))).length ≤ n := by
          have h1 := List.length_filter_le
            (fun x => !(decide (t ≤ compare_audio_fingerprints e.1 x.1))) rest
          have h2 : rest.length ≤ n := by simpa using Nat.le_of_succ_le_succ hlen
          omega
        exact ih _ hr g h2

theorem specAnchorGroups_shape (t : ℚ) (cands : List (String × String)) :
    ∀ g ∈ specAnchorGroups t cands, 2 ≤ g.2.length ∧ g.2.headI = g.1 :=
  specAnchorGroups_shape_aux t cands.length cands le_rfl

theorem mem_specAnchor_members_aux (t : ℚ) (n : Nat) :
    ∀ (cands : List (String × String)), cands.length ≤ n →
      ∀ p ∈ (specAnchorGroups t cands).flatMap Prod.snd, p ∈ cands.map Prod.snd := by
  induction n with
  | zero =>
    intro cands hlen p hp
    rw [List.length_eq_zero.1 (Nat.le_zero.1 hlen), specAnchorGroups_nil] at hp
    cases hp
  | succ n ih =>
    intro cands hlen p hp
    match cands with
    | [] => rw [specAnchorGroups_nil] at hp; cases hp
    | e :: rest =>
      rw [specAnchorGroups] at hp
      have hr : (rest.filter
          (fun x => !(decide (t ≤ compare_audio_fingerprints e.1 x.1)))).length ≤ n := by
        have h1 := List.length_filter_le
          (fun x => !(decide (t ≤ compare_audio_fingerprints e.1 x.1))) rest
        have h2 : rest.length ≤ n := by simpa using Nat.le_of_succ_le_succ hlen
        omega
      rw [List.flatMap_append, List.mem_append] at hp
      rcases hp with h1 | h2
      · by_cases hc : 2 ≤ (e.2 :: ((rest.filter
            (fun x => decide (t ≤ compare_audio_fingerprints e.1 x.1))).map Prod.snd)).length
        · rw [if_pos hc] at h1
          simp only [List.flatMap_cons, List.flatMap_nil, List.append_nil] at h1
          rcases List.mem_cons.1 h1 with rfl | h1'
          · simp
          · rcases List.mem_map.1 h1' with ⟨x, hx, rfl⟩
            exact List.mem_cons_of_mem _
              (List.mem_map_of_mem Prod.snd (List.mem_of_mem_filter hx))
        · rw [if_neg hc] at h1; cases h1
      · have := ih _ hr p h2
        rcases List.mem_map.1 this with ⟨x, hx, rfl⟩
        exact List.mem_cons_of_mem _
          (List.mem_map_of_mem Prod.snd (List.mem_of_mem_filter hx))

theorem mem_specAnchor_members (t : ℚ) (cands : List (String × String)) :
    ∀ p ∈ (specAnchorGroups t cands).flatMap Prod.snd, p ∈ cands.map Prod.snd :=
  mem_specAnchor_members_aux t cands.length cands le_rfl

theorem nodup_specAnchor_members_aux (t : ℚ) (n : Nat) :
    ∀ (cands : List (String × String)), cands.length ≤ n →
      (cands.map Prod.snd).Nodup →
      ((specAnchorGroups t cands).flatMap Prod.snd).Nodup := by
  induction n with
  | zero =>
    intro cands hlen _
    rw [List.length_eq_zero.1 (Nat.le_zero.1 hlen), specAnchorGroups_nil]
    simp
  | succ n ih =>
    intro cands hlen hsnd
    match cands with
    | [] => rw [specAnchorGroups_nil]; simp
    | e :: rest =>
      have hmem2 : e.2 ∉ rest.map Prod.snd := (List.nodup_cons.1 (by simpa using hsnd)).1
      have hsnd' : (rest.map Prod.snd).Nodup := (List.nodup_cons.1 (by simpa using hsnd)).2
      have hr : (rest.filter
          (fun x => !(decide (t ≤ compare_audio_fingerprints e.1 x.1)))).length ≤ n := by
        have h1 := List.length_filter_le
          (fun x => !(decide (t ≤ compare_audio_fingerprints e.1 x.1))) rest
        have h2 : rest.length ≤ n := by simpa using Nat.le_of_succ_le_succ hlen
        omega
      have hrem : ((rest.filter
          (fun x => !(decide (t ≤ compare_audio_fingerprints e.1 x.1)))).map Prod.snd).Nodup :=
        ((List.filter_sublist rest).map Prod.snd).nodup hsnd'
      have hremnd := ih _ hr hrem
      have hremsub : ∀ p ∈ (specAnchorGroups t (rest.filter
          (fun x => !(decide (t ≤ compare_audio_fingerprints e.1 x.1))))).flatMap Prod.snd,
          p ∈ rest.map Prod.snd := by
        intro p hp
        have := mem_specAnchor_members t _ p hp
        rcases List.mem_map.1 this with ⟨x, hx, rfl⟩
        exact List.mem_map_of_mem Prod.snd (List.mem_of_mem_filter hx)
      rw [specAnchorGroups]
      by_cases hc : 2 ≤ (e.2 :: ((rest.filter
          (fun x => decide (t ≤ compare_audio_fingerprints e.1 x.1))).map Prod.snd)).length
      · rw [if_pos hc]
        simp only [List.flatMap_append, List.flatMap_cons, List.flatMap_nil, List.append_nil]
        rw [List.cons_append, List.nodup_cons]
        constructor
        · intro hmem
          rcases List.mem_append.1 hmem with h1 | h2
          · rcases List.mem_map.1 h1 with ⟨x, hx, hx2⟩
            exact hmem2 (hx2 ▸ List.mem_map_of_mem Prod.snd (List.mem_of_mem_filter hx))
          · exact hmem2 (hremsub _ h2)
        · rw [List.nodup_append]
          refine ⟨((List.filter_sublist rest).map Prod.snd).nodup hsnd', hremnd, ?_⟩
          intro p hp1 hp2
          rcases List.mem_map.1 hp1 with ⟨x, hx, rfl⟩
          have hp2' := hremsub _ hp2
          rcases List.mem_map.1 hp2' with ⟨y, hy, hyx⟩
          have := mem_specAnchor_members t _ _ hp2
          rcases List.mem_map.1 this with ⟨z, hz, hzx⟩
          have hzy : z ∈ rest := List.mem_of_mem_filter hz
          have hxy : x = z := List.inj_on_of_nodup_map hsnd'
            (List.mem_of_mem_filter hx) hzy (hzx ▸ rfl)
          have hxf := List.mem_filter.1 hx
          have hzf := List.mem_filter.1 hz
          rw [← hxy] at hzf
          rcases hxf with ⟨_, hxp⟩
          rcases hzf with ⟨_, hzp⟩
          simp only [Bool.not_eq_true'] at hzp
          rw [hxp] at hzp
          cases hzp
      · rw [if_neg hc]
        simpa using hremnd

theorem nodup_specAnchor_members (t : ℚ) (cands : List (String × String))
    (hsnd : (cands.map Prod.snd).Nodup) :
    ((specAnchorGroups t cands).flatMap Prod.snd).Nodup :=
  nodup_specAnchor_members_aux t cands.length cands le_rfl hsnd

theorem near_eq_specGroupNear (t : ℚ) (singles : List (String × String))
    (h : (singles.map Prod.fst).Nodup) :
    near_duplicate_groups t singles = specGroupNear singles 8 t := by
  rw [near_duplicate_groups, specGroupNear, hash_prefixes_eq]
  refine List.flatMap_congr ?_
  intro b hb
  have hchar := (bucket_snd_char hb).1
  have hsub0 : (((singles.filter (fun e => decide (8 ≤ e.1.length))).filter
      (fun a => decide (String.mk (a.1.data.take 8) = b.1)))).Sublist
      (singles.filter (fun e => decide (8 ≤ e.1.length))) := List.filter_sublist _
  have hsub : b.2.Sublist (singles.filter (fun e => decide (8 ≤ e.1.length))) := by
    rw [hchar, List.map_id']
    exact hsub0
  have hsub2 : b.2.Sublist singles := hsub.trans (List.filter_sublist _)
  have hfst : (b.2.map Prod.fst).Nodup := (hsub2.map Prod.fst).nodup h
  by_cases hlen : b.2.length ≤ 1
  · rw [if_pos hlen]
    match b2 : b.2 with
    | [] => rw [specAnchorGroups_nil]
    | [e] => rw [specAnchorGroups_singleton]
    | e1 :: e2 :: es => rw [b2] at hlen; simp at hlen
  · rw [if_neg hlen, groupCandidates_eq_specAnchor t b.2 hfst []]
    congr 1
    refine (List.filter_congr ?_).trans (List.filter_true _)
    intro x hx
    simp

theorem sublist_flatMap {α β : Type} {l₁ l₂ : List α} (f : α → List β)
    (h : l₁.Sublist l₂) : (l₁.flatMap f).Sublist (l₂.flatMap f) := by
  induction h with
  | slnil => simp
  | cons a h ih => exact ih.trans (List.sublist_append_right _ _)
  | cons₂ a h ih => simpa using ih.append_left (f a)

theorem filterMap_sublist_map {α β : Type} (g : α → Option β) (h : α → β)
    (hgh : ∀ a b, g a = some b → b = h a) (l : List α) :
    (l.filterMap g).Sublist (l.map h) := by
  induction l with
  | nil => simp
  | cons a rest ih =>
    rw [List.filterMap_cons, List.map_cons]
    cases hga : g a with
    | none => exact ih.trans (List.sublist_cons_self _ _)
    | some b => rw [hgh a b hga]; exact ih.cons₂ _

theorem valid_fst_sublist (fps : List (String × Option String)) :
    ((validFingerprints fps).map Prod.fst).Sublist (fps.map Prod.fst) := by
  rw [validFingerprints, List.map_filterMap]
  refine filterMap_sublist_map _ Prod.fst ?_ fps
  rintro ⟨p, of⟩ b hb
  match of with
  | none => simp at hb
  | some f =>
    by_cases hf : f = "" <;> simp [hf] at hb
    exact hb.symm

theorem singles_fst_sublist (bs : List (String × List String)) :
    ((bs.filterMap (fun b => match b.2 with
        | [x] => some (b.1, x)
        | _ => none)).map Prod.fst).Sublist (bs.map Prod.fst) := by
  rw [List.map_filterMap]
  refine filterMap_sublist_map _ Prod.fst ?_ bs
  rintro ⟨k, vs⟩ b hb
  match vs with
  | [] => simp at hb
  | [x] => simp at hb; exact hb.symm
  | x :: y :: ys => simp at hb

theorem singles_snd_sublist (bs : List (String × List String)) :
    ((bs.filterMap (fun b => match b.2 with
        | [x] => some (b.1, x)
        | _ => none)).map Prod.snd).Sublist (bs.flatMap Prod.snd) := by
  induction bs with
  | nil => simp
  | cons b rest ih =>
    rw [List.filterMap_cons, List.flatMap_cons]
    match hb : b.2 with
    | [] => simpa using ih
    | [x] => simpa using ih.cons₂ x
    | x :: y :: ys => exact ih.trans (List.sublist_append_right _ _)

theorem nodup_single_files_fst (fps : List (String × Option String)) :
    ((single_files fps).map Prod.fst).Nodup :=
  (singles_fst_sublist _).nodup
    (nodup_keys_bucketBy Prod.snd Prod.fst (validFingerprints fps))

theorem flat_buckets_nodup (fps : List (String × Option String))
    (h : (fps.map Prod.fst).Nodup) :
    ((fingerprint_to_files (validFingerprints fps)).flatMap Prod.snd).Nodup := by
  have hv : ((validFingerprints fps).map Prod.fst).Nodup := (valid_fst_sublist fps).nodup h
  exact (flat_bucketBy_perm Prod.snd Prod.fst (validFingerprints fps)).nodup_iff.2 hv

theorem exact_members_sublist (fps : List (String × Option String)) :
    ((exact_duplicates fps).flatMap Prod.snd).Sublist
      ((fingerprint_to_files (validFingerprints fps)).flatMap Prod.snd) :=
  sublist_flatMap Prod.snd (List.filter_sublist _)

theorem singles_paths_nodup (fps : List (String × Option String))
    (h : (fps.map Prod.fst).Nodup) :
    ((single_files fps).map Prod.snd).Nodup :=
  (singles_snd_sublist _).nodup (flat_buckets_nodup fps h)

theorem near_members_sub_singles (t : ℚ) (fps : List (String × Option String)) :
    ∀ p ∈ (near_duplicate_groups t (single_files fps)).flatMap Prod.snd,
      p ∈ (single_files fps).map Prod.snd := by
  intro p hp
  rw [near_eq_specGroupNear t (single_files fps) (nodup_single_files_fst fps),
    specGroupNear] at hp
  rcases List.mem_flatMap.1 hp with ⟨g, hg, hpg⟩
  rcases List.mem_flatMap.1 hg with ⟨b, hb, hgb⟩
  have hpm : p ∈ (specAnchorGroups t b.2).flatMap Prod.snd :=
    List.mem_flatMap.2 ⟨g, hgb, hpg⟩
  have := mem_specAnchor_members t b.2 p hpm
  rcases List.mem_map.1 this with ⟨e, he, rfl⟩
  have hchar := (bucket_snd_char hb).1
  rw [hchar, List.map_id'] at he
  exact List.mem_map_of_mem Prod.snd
    (List.mem_of_mem_filter (List.mem_of_mem_filter he))

theorem flatMap_assoc' {α β γ : Type} (l : List α) (f : α → List β) (g : β → List γ) :
    (l.flatMap f).flatMap g = l.flatMap (fun a => (f a).flatMap g) := by
  induction l with
  | nil => simp
  | cons a rest ih => simp [List.flatMap_cons, ih]

theorem near_members_nodup (t : ℚ) (fps : List (String × Option String))
    (h : (fps.map Prod.fst).Nodup) :
    ((near_duplicate_groups t (single_files fps)).flatMap Prod.snd).Nodup := by
  rw [near_eq_specGroupNear t (single_files fps) (nodup_single_files_fst fps),
    specGroupNear, flatMap_assoc']
  have hsnd : ((single_files fps).map Prod.snd).Nodup := singles_paths_nodup fps h
  set singles := single_files fps with hs
  set fl := singles.filter (fun e => decide (8 ≤ e.1.length)) with hfl
  set HB := bucketBy (fun e : String × String => String.mk (e.1.data.take 8))
    (fun e => e) fl with hHB
  have hb_sub : ∀ b ∈ HB, b.2.Sublist singles := by
    intro b hb
    have hchar := (bucket_snd_char hb).1
    rw [hchar, List.map_id']
    exact (List.filter_sublist _).trans (List.filter_sublist _)
  rw [List.nodup_flatMap]
  constructor
  · intro b hb
    exact nodup_specAnchor_members t b.2 (((hb_sub b hb).map Prod.snd).nodup hsnd)
  · have hkeys : HB.Pairwise (fun b₁ b₂ => b₁.1 ≠ b₂.1) := by
      have := nodup_keys_bucketBy
        (fun e : String × String => String.mk (e.1.data.take 8)) (fun e => e) fl
      rw [List.Nodup, List.pairwise_map] at this
      exact this
    refine hkeys.imp_of_mem ?_
    intro b₁ b₂ hb₁ hb₂ hne
    intro p hp1 hp2
    rcases List.mem_map.1 (mem_specAnchor_members t b₁.2 p hp1) with ⟨e₁, he₁, hpe₁⟩
    rcases List.mem_map.1 (mem_specAnchor_members t b₂.2 p hp2) with ⟨e₂, he₂, hpe₂⟩
    rcases entry_of_mem_bucket hb₁ he₁ with ⟨a₁, ha₁, rfl, hk₁⟩
    rcases entry_of_mem_bucket hb₂ he₂ with ⟨a₂, ha₂, rfl, hk₂⟩
    have ha₁s : a₁ ∈ singles := List.mem_of_mem_filter ha₁
    have ha₂s : a₂ ∈ singles := List.mem_of_mem_filter ha₂
    have : a₁ = a₂ := List.inj_on_of_nodup_map hsnd ha₁s ha₂s (hpe₁.trans hpe₂.symm)
    exact hne (hk₁ ▸ hk₂ ▸ this ▸ rfl)

theorem mem_exact_members (fps : List (String × Option String)) {p : String}
    (hp : p ∈ (exact_duplicates fps).flatMap Prod.snd) :
    ∃ b ∈ fingerprint_to_files (validFingerprints fps), 1 < b.2.length ∧ p ∈ b.2 := by
  rcases List.mem_flatMap.1 hp with ⟨b, hb, hpb⟩
  rcases List.mem_filter.1 hb with ⟨hbB, hlen⟩
  exact ⟨b, hbB, by simpa using hlen, hpb⟩

theorem mem_singles_paths (fps : List (String × Option String)) {p : String}
    (hp : p ∈ (single_files fps).map Prod.snd) :
    ∃ b ∈ fingerprint_to_files (validFingerprints fps), b.2 = [p] := by
  rcases List.mem_map.1 hp with ⟨c, hc, hcp⟩
  rcases List.mem_filterMap.1 hc with ⟨b, hb, hfb⟩
  refine ⟨b, hb, ?_⟩
  match hb2 : b.2 with
  | [] => rw [hb2] at hfb; simp at hfb
  | [x] =>
    rw [hb2] at hfb
    simp only [Option.some.injEq] at hfb
    rw [← hfb] at hcp
    simp at hcp
    rw [hcp]
  | x :: y :: ys => rw [hb2] at hfb; simp at hfb

theorem exact_near_disjoint (t : ℚ) (fps : List (String × Option String))
    (h : (fps.map Prod.fst).Nodup) {p : String}
    (hex : p ∈ (exact_duplicates fps).flatMap Prod.snd)
    (hnr : p ∈ (near_duplicate_groups t (single_files fps)).flatMap Prod.snd) : False := by
  rcases mem_exact_members fps hex with ⟨b, hbB, hlen, hpb⟩
  rcases mem_singles_paths fps (near_members_sub_singles t fps p hnr) with ⟨b', hb'B, hb'2⟩
  have hbne : b ≠ b' := by
    intro hc
    rw [hc, hb'2] at hlen
    simp at hlen
  have hflat := flat_buckets_nodup fps h
  rw [List.nodup_flatMap] at hflat
  have hdisj := hflat.2.forall (fun x y hxy => List.Disjoint.symm hxy) hbB hb'B hbne
  exact hdisj hpb (hb'2 ▸ List.mem_singleton.2 rfl)

theorem find_members_eq (fps : List (String × Option String)) (t : ℚ) :
    groupMembers (find_duplicates_by_fingerprints fps t)
      = (exact_duplicates fps).flatMap Prod.snd
        ++ (near_duplicate_groups t (single_files fps)).flatMap Prod.snd := by
  rw [groupMembers, find_duplicates_by_fingerprints, List.flatMap_append]
  congr 1
  generalize exact_duplicates fps = l
  induction l with
  | nil => simp
  | cons b rest ih => simp [ih]

theorem members_nodup (fps : List (String × Option String)) (t : ℚ)
    (h : (fps.map Prod.fst).Nodup) :
    (groupMembers (find_duplicates_by_fingerprints fps t)).Nodup := by
  rw [find_members_eq]
  rw [List.nodup_append]
  refine ⟨(exact_members_sublist fps).nodup (flat_buckets_nodup fps h),
    near_members_nodup t fps h, ?_⟩
  intro p hex hnr
  exact exact_near_disjoint t fps h hex hnr

theorem members_sub_vpaths (fps : List (String × Option String)) (t : ℚ) :
    ∀ p ∈ groupMembers (find_duplicates_by_fingerprints fps t),
      p ∈ (validFingerprints fps).map Prod.fst := by
  intro p hp
  rw [find_members_eq] at hp
  have hBv := flat_bucketBy_perm Prod.snd Prod.fst (validFingerprints fps)
  rcases List.mem_append.1 hp with hex | hnr
  · exact hBv.mem_iff.1 ((exact_members_sublist fps).mem hex)
  · exact hBv.mem_iff.1 ((singles_snd_sublist _).mem (near_members_sub_singles t fps p hnr))

theorem falsy_not_valid (fps : List (String × Option String))
    (h : (fps.map Prod.fst).Nodup) {pr : String × Option String} (hpr : pr ∈ fps)
    (hf : pr.2 = none ∨ pr.2 = some "") :
    pr.1 ∉ (validFingerprints fps).map Prod.fst := by
  intro hmem
  rcases List.mem_map.1 hmem with ⟨e, he, hefst⟩
  rcases List.mem_filterMap.1 he with ⟨pr', hpr', heq⟩
  match hpr2 : pr'.2 with
  | none => rw [hpr2] at heq; simp at heq
  | some f =>
    rw [hpr2] at heq
    by_cases hf' : f = ""
    · simp [hf'] at heq
    · simp only [hf', if_false, if_neg hf'] at heq
      have hee : e = (pr'.1, f) := by
        simpa using heq.symm
      have hfst : pr.1 = pr'.1 := by rw [← hefst, hee]
      have : pr = pr' := List.inj_on_of_nodup_map h hpr hpr' hfst
      rw [← this] at hpr2
      rcases hf with h0 | h0 <;> rw [h0] at hpr2
      · cases hpr2
      · exact hf' (by simpa using hpr2.symm)

theorem get_unique_files_eq_filter (all : List String) (gs : List (String × List String)) :
    get_unique_files all gs = all.filter (fun p => decide (p ∉ groupMembers gs)) := by
  refine List.filter_congr ?_
  intro p _
  by_cases hm : p ∈ groupMembers gs
  · rcases List.mem_flatMap.1 hm with ⟨g, hg, hpg⟩
    have : gs.any (fun g => decide (p ∈ g.2)) = true :=
      List.any_eq_true.2 ⟨g, hg, by simpa using hpg⟩
    simp [this, hm]
  · have : gs.any (fun g => decide (p ∈ g.2)) = false := by
      rw [List.any_eq_false]
      intro g hg
      simp only [decide_eq_true_eq]
      intro hpg
      exact hm (List.mem_flatMap.2 ⟨g, hg, hpg⟩)
    simp [this, hm]

/-- C1.  Partition property: with distinct input FileIDs, every input
FileID occurs exactly once across the concatenation of all duplicate-group
member lists and the unique-file list — so each grouped FileID is in
exactly one group, no group repeats a FileID, and every FileID with a
null/empty fingerprint lands in the unique list. -/
theorem find_duplicates_partition (fps : List (String × Option String)) (t : ℚ)
    (h : (fps.map Prod.fst).Nodup) :
    (∀ p ∈ fps.map Prod.fst,
      (groupMembers (find_duplicates_by_fingerprints fps t)
        ++ get_unique_files (fps.map Prod.fst)
            (find_duplicates_by_fingerprints fps t)).count p = 1)
    ∧ (∀ pr ∈ fps, pr.2 = none ∨ pr.2 = some "" →
        pr.1 ∈ get_unique_files (fps.map Prod.fst)
          (find_duplicates_by_fingerprints fps t)) := by
  have hU := get_unique_files_eq_filter (fps.map Prod.fst)
    (find_duplicates_by_fingerprints fps t)
  constructor
  · intro p hp
    rw [List.count_append, hU]
    by_cases hm : p ∈ groupMembers (find_duplicates_by_fingerprints fps t)
    · have h1 : (groupMembers (find_duplicates_by_fingerprints fps t)).count p = 1 :=
        List.count_eq_one_of_mem (members_nodup fps t h) hm
      have h2 : p ∉ (fps.map Prod.fst).filter
          (fun p => decide (p ∉ groupMembers (find_duplicates_by_fingerprints fps t))) := by
        intro hc
        have := (List.mem_filter.1 hc).2
        simp only [decide_eq_true_eq] at this
        exact this hm
      rw [h1, List.count_eq_zero.2 h2]
    · have h1 : (groupMembers (find_duplicates_by_fingerprints fps t)).count p = 0 :=
        List.count_eq_zero.2 hm
      have hUin : p ∈ (fps.map Prod.fst).filter
          (fun p => decide (p ∉ groupMembers (find_duplicates_by_fingerprints fps t))) :=
        List.mem_filter.2 ⟨hp, by simpa using hm⟩
      have hUnd : ((fps.map Prod.fst).filter
          (fun p => decide (p ∉ groupMembers (find_duplicates_by_fingerprints fps t)))).Nodup :=
        h.filter _
      rw [h1, List.count_eq_one_of_mem hUnd hUin]
  · intro pr hpr hf
    rw [hU]
    refine List.mem_filter.2 ⟨List.mem_map_of_mem Prod.fst hpr, ?_⟩
    simp only [decide_eq_true_eq]
    intro hm
    exact falsy_not_valid fps h hpr hf (members_sub_vpaths fps t pr.1 hm)

theorem find_duplicates_partition_witness :
    (groupMembers (find_duplicates_by_fingerprints
        [("a", some "ABCD"), ("b", some "ABCD"), ("c", none)] 98)
      ++ get_unique_files ["a", "b", "c"]
          (find_duplicates_by_fingerprints
            [("a", some "ABCD"), ("b", some "ABCD"), ("c", none)] 98)).count "a" = 1 :=
  (find_duplicates_partition [("a", some "ABCD"), ("b", some "ABCD"), ("c", none)] 98
    (by decide)).1 "a" (by decide)

theorem filter_eq_singleton_of_unique {α : Type} {l : List α} {b : α} {p : α → Bool}
    (hnd : l.Nodup) (hb : b ∈ l) (hpb : p b = true)
    (huniq : ∀ g ∈ l, p g = true → g = b) :
    l.filter p = [b] := by
  induction l with
  | nil => cases hb
  | cons a rest ih =>
    have hand := List.nodup_cons.1 hnd
    rcases List.mem_cons.1 hb with rfl | hb'
    · rw [List.filter_cons, if_pos hpb]
      have hrest : rest.filter p = [] := by
        rw [List.filter_eq_nil_iff]
        intro g hg hpg
        exact hand.1 ((huniq g (List.mem_cons_of_mem _ hg) hpg) ▸ hg)
      rw [hrest]
    · have hpa : ¬ p a = true := by
        intro hpa
        have hab := huniq a (List.mem_cons_self a rest) hpa
        exact hand.1 (hab ▸ hb')
      rw [List.filter_cons, if_neg hpa]
      exact ih hand.2 hb' (fun g hg hpg => huniq g (List.mem_cons_of_mem _ hg) hpg)

theorem zfill_length (cs : List Char) (w : Nat) : (zfill cs w).length = max w cs.length := by
  simp [zfill]
  omega

theorem countMatches_comm : ∀ (x y : List Char), countMatches x y = countMatches y x := by
  intro x
  induction x with
  | nil => intro y; cases y <;> simp [countMatches]
  | cons a xs ih =>
    intro y
    cases y with
    | nil => simp [countMatches]
    | cons b ys =>
      simp only [countMatches, List.zip_cons_cons, List.filter_cons]
      by_cases hab : a = b
      · subst hab
        simp only [decide_eq_true_eq, if_true, eq_self_iff_true, List.length_cons]
        simpa [countMatches] using ih ys
      · have hba : ¬ b = a := fun hc => hab hc.symm
        simp only [decide_eq_true_eq]
        rw [if_neg hab, if_neg hba]
        exact ih ys

/-- C8.  Similarity base cases: equal fingerprint strings (including two
empty ones) score 100.0; when exactly one side is empty the score is 0.0. -/
theorem similarity_base_cases :
    (∀ a b : String, a = b → compare_audio_fingerprints a b = 100)
    ∧ (∀ a : String, a ≠ "" →
        compare_audio_fingerprints a "" = 0 ∧ compare_audio_fingerprints "" a = 0) := by
  constructor
  · intro a b hab
    subst hab
    simp [compare_audio_fingerprints]
  · intro a ha
    have ha' : ¬ ("" : String) = a := fun hc => ha hc.symm
    constructor
    · simp [compare_audio_fingerprints, ha]
    · simp [compare_audio_fingerprints, ha']

theorem similarity_base_cases_witness :
    compare_audio_fingerprints "AB" "AB" = 100
    ∧ compare_audio_fingerprints "AB" "" = 0
    ∧ compare_audio_fingerprints "" "AB" = 0 :=
  ⟨similarity_base_cases.1 "AB" "AB" rfl,
    (similarity_base_cases.2 "AB" (by decide)).1,
    (similarity_base_cases.2 "AB" (by decide)).2⟩

/-- C9.  Similarity is symmetric in its two arguments, and any valid
(hex-decodable) non-empty fingerprint has similarity 100.0 with itself. -/
theorem similarity_symm_refl :
    (∀ a b : String,
      compare_audio_fingerprints a b = compare_audio_fingerprints b a)
    ∧ (∀ a : String, a ≠ "" → (pythonIntHex? a).isSome →
        compare_audio_fingerprints a a = 100) := by
  constructor
  · intro a b
    by_cases hab : a = b
    · subst hab; rfl
    · have hba : ¬ b = a := fun hc => hab hc.symm
      by_cases ha : a = ""
      · subst ha
        simp [compare_audio_fingerprints, hab, hba]
      · by_cases hb : b = ""
        · subst hb
          simp [compare_audio_fingerprints, hab, hba]
        · rw [compare_audio_fingerprints, compare_audio_fingerprints,
            if_neg (by simp [ha, hb, hab]), if_neg (by simp [ha, hb, hba])]
          cases ca : pythonIntHex? a with
          | none => cases cb : pythonIntHex? b <;> rfl
          | some na =>
            cases cb : pythonIntHex? b with
            | none => rfl
            | some nb =>
            simp only
            rw [countMatches_comm]
            have hmax : max (zfill (pythonBin nb) (b.length * 4)).length
                (zfill (pythonBin na) (a.length * 4)).length
                = max (zfill (pythonBin na) (a.length * 4)).length
                  (zfill (pythonBin nb) (b.length * 4)).length := Nat.max_comm _ _
            rw [hmax]
            have hl1 : (zfill (zfill (pythonBin na) (a.length * 4))
                (max (zfill (pythonBin na) (a.length * 4)).length
                  (zfill (pythonBin nb) (b.length * 4)).length)).length
                = max (zfill (pythonBin na) (a.length * 4)).length
                  (zfill (pythonBin nb) (b.length * 4)).length := by
              rw [zfill_length]
              omega
            have hl2 : (zfill (zfill (pythonBin nb) (b.length * 4))
                (max (zfill (pythonBin na) (a.length * 4)).length
                  (zfill (pythonBin nb) (b.length * 4)).length)).length
                = max (zfill (pythonBin na) (a.length * 4)).length
                  (zfill (pythonBin nb) (b.length * 4)).length := by
              rw [zfill_length]
              omega
            rw [hl1, hl2]
  · intro a _ _
    simp [compare_audio_fingerprints]

theorem similarity_symm_refl_witness :
    compare_audio_fingerprints "AB" "CD" = compare_audio_fingerprints "CD" "AB"
    ∧ compare_audio_fingerprints "AB" "AB" = 100 :=
  ⟨similarity_symm_refl.1 "AB" "CD",
    similarity_symm_refl.2 "AB" (by decide) (by decide)⟩

/-- C5 counterexample.  A malformed (non-decodable) fingerprint compared
with itself scores 100.0, not 0.0: the string-equality fast path runs
before any decoding, so the claim "similarity 0.0 against everything" fails
for equal malformed strings. -/
theorem malformed_equal_full_similarity :
    pythonIntHex? "ZZ" = none ∧ compare_audio_fingerprints "ZZ" "ZZ" = 100 :=
  ⟨by decide, by with_unfolding_all decide⟩

/-- C5 amended.  A nonempty fingerprint that cannot be decoded scores 0.0
against every fingerprint that differs from it as a string (in both
argument orders), returning gracefully instead of raising; the equality
fast path, which fires first, returns 100.0 when both arguments are the
identical string. -/
theorem malformed_similarity_zero (s u : String) (hs : s ≠ "")
    (hdec : pythonIntHex? s = none) (hne : s ≠ u) :
    compare_audio_fingerprints s u = 0 ∧ compare_audio_fingerprints u s = 0 := by
  have hne' : ¬ u = s := fun hc => hne hc.symm
  by_cases hu : u = ""
  · subst hu
    constructor
    · simp [compare_audio_fingerprints, hne]
    · simp [compare_audio_fingerprints, hne']
  · constructor
    · rw [compare_audio_fingerprints, if_neg (by simp [hs, hu, hne]), hdec]
    · rw [compare_audio_fingerprints, if_neg (by simp [hs, hu, hne']), hdec]
      cases pythonIntHex? u <;> rfl

theorem malformed_similarity_zero_witness :
    compare_audio_fingerprints "ZZ" "AB" = 0 ∧ compare_audio_fingerprints "AB" "ZZ" = 0 :=
  malformed_similarity_zero "ZZ" "AB" (by decide) (by decide) (by decide)

/-- C10.  Two distinct well-formed hex fingerprints differing only in a
leading zero decode to the same padded bit vector, so their similarity is
100.0; yet exact bucketing (string equality) and prefix bucketing (raw
leading characters) separate them, so at any threshold both files are
reported unique and no duplicate group is found. -/
theorem leading_zero_fingerprints_unreported :
    "0FFFFFFFF" ≠ "FFFFFFFF"
    ∧ (pythonIntHex? "0FFFFFFFF").isSome
    ∧ (pythonIntHex? "FFFFFFFF").isSome
    ∧ compare_audio_fingerprints "0FFFFFFFF" "FFFFFFFF" = 100
    ∧ (∀ t : ℚ, find_duplicates_by_fingerprints
        [("pA", some "0FFFFFFFF"), ("pB", some "FFFFFFFF")] t = [])
    ∧ (∀ t : ℚ, get_unique_files ["pA", "pB"]
        (find_duplicates_by_fingerprints
          [("pA", some "0FFFFFFFF"), ("pB", some "FFFFFFFF")] t) = ["pA", "pB"]) :=
  ⟨by decide, by decide, by decide, by with_unfolding_all decide,
    fun t => rfl, fun t => rfl⟩

/-- C7.  On an empty input the clustering and unique-file steps return
empty results, but `comprehensive_duplicate_analysis` itself raises
`ZeroDivisionError` computing `fingerprint_success_rate` (division by
`len(filepaths)` at line 878), modelled as `none`: the pipeline does not
return the zero-count `ClusteringResult` the claim describes. -/
theorem empty_input_analysis_raises :
    (∀ gen : String → Option String, comprehensive_duplicate_analysis [] gen = none)
    ∧ find_duplicates_by_fingerprints [] 98 = []
    ∧ get_unique_files [] (find_duplicates_by_fingerprints [] 98) = [] :=
  ⟨fun _ => rfl, rfl, rfl⟩

/-- C4.  Exact-match bucketing: FileIDs with null/empty fingerprints are
skipped entirely; the remaining FileIDs are bucketed by exact fingerprint
string equality; each bucket with ≥ 2 members becomes exactly one duplicate
group whose members are the bucket in input order and whose key is the
first FileID encountered for that fingerprint; size-one buckets are passed
on as singles; three files with identical fingerprints give exactly one
group of size 3. -/
theorem exact_bucketing_characterization (fps : List (String × Option String)) (t : ℚ)
    (h : (fps.map Prod.fst).Nodup) :
    (∀ pr ∈ fps, pr.2 = none ∨ pr.2 = some "" →
        pr.1 ∉ (validFingerprints fps).map Prod.fst)
    ∧ (∀ g ∈ exact_duplicates fps,
        g.2 = filesWithFingerprint fps g.1 ∧ 2 ≤ g.2.length
          ∧ (g.2.headI, g.2) ∈ find_duplicates_by_fingerprints fps t)
    ∧ (∀ f : String, 2 ≤ (filesWithFingerprint fps f).length →
        (exact_duplicates fps).filter
          (fun g => decide (g = (f, filesWithFingerprint fps f)))
          = [(f, filesWithFingerprint fps f)])
    ∧ (∀ f x, filesWithFingerprint fps f = [x] → (f, x) ∈ single_files fps)
    ∧ (∀ e ∈ single_files fps, filesWithFingerprint fps e.1 = [e.2])
    ∧ (∀ t' : ℚ, find_duplicates_by_fingerprints
        [("a", some "ABCD"), ("b", some "ABCD"), ("c", some "ABCD")] t'
        = [("a", ["a", "b", "c"])]) := by
  have hBnd : (fingerprint_to_files (validFingerprints fps)).Nodup :=
    (nodup_keys_bucketBy Prod.snd Prod.fst (validFingerprints fps)).of_map Prod.fst
  refine ⟨fun pr hpr hf => falsy_not_valid fps h hpr hf, ?_, ?_, ?_, ?_, fun t' => rfl⟩
  · intro g hg
    rcases List.mem_filter.1 hg with ⟨hgB, hlen⟩
    have hlen' : 2 ≤ g.2.length := by simpa using of_decide_eq_true hlen
    refine ⟨(bucket_snd_char hgB).1, hlen', ?_⟩
    rw [find_duplicates_by_fingerprints]
    exact List.mem_append_left _
      (List.mem_map_of_mem (fun b => (b.2.headI, b.2)) hg)
  · intro f hf
    have hne : filesWithFingerprint fps f ≠ [] := by
      intro hc
      rw [hc] at hf
      simp at hf
    have hfil : ((validFingerprints fps).filter (fun a => decide (a.2 = f))) ≠ [] := by
      intro hc
      exact hne (by rw [filesWithFingerprint, hc]; rfl)
    have hkey : f ∈ (fingerprint_to_files (validFingerprints fps)).map Prod.fst :=
      (mem_keys_bucketBy Prod.snd Prod.fst (validFingerprints fps) f).2 hfil
    rcases List.mem_map.1 hkey with ⟨b, hbB, hbf⟩
    have hb2 : b.2 = filesWithFingerprint fps f := by
      have := (bucket_snd_char hbB).1
      rw [hbf] at this
      exact this
    have hbex : b ∈ exact_duplicates fps := by
      refine List.mem_filter.2 ⟨hbB, ?_⟩
      rw [hb2]
      simpa using Nat.lt_of_lt_of_le Nat.one_lt_two hf
    have hbval : b = (f, filesWithFingerprint fps f) := by
      rcases b with ⟨b1, b2⟩
      simp only at hbf hb2
      rw [hbf, hb2]
    rw [← hbval]
    refine filter_eq_singleton_of_unique (hBnd.filter _) hbex (by simp) ?_
    intro g _ hpg
    simpa using hpg
  · intro f x hfx
    have hfil : ((validFingerprints fps).filter (fun a => decide (a.2 = f))) ≠ [] := by
      intro hc
      rw [filesWithFingerprint, hc] at hfx
      cases hfx
    have hkey : f ∈ (fingerprint_to_files (validFingerprints fps)).map Prod.fst :=
      (mem_keys_bucketBy Prod.snd Prod.fst (validFingerprints fps) f).2 hfil
    rcases List.mem_map.1 hkey with ⟨b, hbB, hbf⟩
    have hb2 : b.2 = [x] := by
      have := (bucket_snd_char hbB).1
      rw [hbf] at this
      rw [this]
      exact hfx
    refine List.mem_filterMap.2 ⟨b, hbB, ?_⟩
    rw [hb2, ← hbf]
  · intro e he
    rcases List.mem_filterMap.1 he with ⟨b, hbB, hfb⟩
    match hb2 : b.2 with
    | [] => rw [hb2] at hfb; simp at hfb
    | [x] =>
      rw [hb2] at hfb
      simp only [Option.some.injEq] at hfb
      have hchar := (bucket_snd_char hbB).1
      rw [hb2] at hchar
      rw [← hfb]
      show ((validFingerprints fps).filter (fun e => decide (e.2 = b.1))).map Prod.fst = [x]
      exact hchar.symm
    | x :: y :: ys => rw [hb2] at hfb; simp at hfb

theorem exact_bucketing_characterization_witness :
    (exact_duplicates [("a", some "ABCD"), ("b", some "ABCD")]).filter
      (fun g => decide (g = ("ABCD",
        filesWithFingerprint [("a", some "ABCD"), ("b", some "ABCD")] "ABCD")))
      = [("ABCD", filesWithFingerprint [("a", some "ABCD"), ("b", some "ABCD")] "ABCD")] :=
  (exact_bucketing_characterization [("a", some "ABCD"), ("b", some "ABCD")] 98
    (by decide)).2.2.1 "ABCD" (by decide)

/-- C2.  Near-duplicate clustering implements the spec's prefix-bucketed
anchor algorithm: for any map of singleton files (distinct fingerprints),
the code's grouping equals the spec-side algorithm — discard fingerprints
shorter than 8 characters, bucket by the first 8 characters, greedily grow
anchor-based groups (members join only by similarity ≥ threshold to the
anchor, never transitively), and emit only groups of ≥ 2 members keyed by
the anchor. -/
theorem near_duplicates_follow_spec_algorithm (singles : List (String × String)) (t : ℚ)
    (hf : (singles.map Prod.fst).Nodup) :
    near_duplicate_groups t singles = specGroupNear singles 8 t
    ∧ ∀ g ∈ specGroupNear singles 8 t, 2 ≤ g.2.length ∧ g.2.headI = g.1 := by
  refine ⟨near_eq_specGroupNear t singles hf, ?_⟩
  intro g hg
  rw [specGroupNear] at hg
  rcases List.mem_flatMap.1 hg with ⟨b, _, hgb⟩
  exact specAnchorGroups_shape t b.2 g hgb

theorem near_duplicates_follow_spec_algorithm_witness :
    near_duplicate_groups 90 [("FFFFFFFF0", "A"), ("FFFFFFFF3", "B")]
      = specGroupNear [("FFFFFFFF0", "A"), ("FFFFFFFF3", "B")] 8 90 :=
  (near_duplicates_follow_spec_algorithm [("FFFFFFFF0", "A"), ("FFFFFFFF3", "B")] 90
    (by decide)).1

/-- C3 counterexample.  Raising the near-duplicate threshold from 94 to 97
frees file B from A's group and lets it seed a new group with C, so C is
grouped at the higher threshold although it was unique at the lower one:
threshold monotonicity fails for the greedy anchor clustering. -/
theorem threshold_monotonicity_fails :
    (94 : ℚ) ≤ 97
    ∧ find_duplicates_by_fingerprints
        [("A", some "FFFFFFFF0"), ("B", some "FFFFFFFF3"), ("C", some "FFFFFFFF7")] 94
        = [("A", ["A", "B"])]
    ∧ find_duplicates_by_fingerprints
        [("A", some "FFFFFFFF0"), ("B", some "FFFFFFFF3"), ("C", some "FFFFFFFF7")] 97
        = [("B", ["B", "C"])]
    ∧ "C" ∈ groupMembers (find_duplicates_by_fingerprints
        [("A", some "FFFFFFFF0"), ("B", some "FFFFFFFF3"), ("C", some "FFFFFFFF7")] 97)
    ∧ "C" ∉ groupMembers (find_duplicates_by_fingerprints
        [("A", some "FFFFFFFF0"), ("B", some "FFFFFFFF3"), ("C", some "FFFFFFFF7")] 94) :=
  ⟨by norm_num, by with_unfolding_all decide, by with_unfolding_all decide,
    by with_unfolding_all decide, by with_unfolding_all decide⟩

/-- C3 amended.  Exact-duplicate groups are contained in the output at
every threshold (hence at 100.0); and for a fixed anchor scanning a fixed
candidate pool (distinct fingerprints) from the same processed set, raising
the threshold only shrinks the set of members that join that anchor's
group.  Globally, however, a member freed by a higher threshold can seed a
new group, so the set of grouped files is not monotone (see the
counterexample). -/
theorem threshold_monotonicity_amended (fps : List (String × Option String))
    (t t1 t2 : ℚ) (fp1 : String) (cands : List (String × String)) (P : List String)
    (h12 : t1 ≤ t2) (hnd : (cands.map Prod.fst).Nodup) :
    (∀ g ∈ exact_duplicates fps,
      (g.2.headI, g.2) ∈ find_duplicates_by_fingerprints fps t)
    ∧ (∀ p ∈ (collectGroup t2 fp1 cands P).1, p ∈ (collectGroup t1 fp1 cands P).1) := by
  constructor
  · intro g hg
    rw [find_duplicates_by_fingerprints]
    exact List.mem_append_left _
      (List.mem_map_of_mem (fun b => (b.2.headI, b.2)) hg)
  · intro p hp
    rw [collectGroup_fst t2 fp1 cands hnd P] at hp
    rw [collectGroup_fst t1 fp1 cands hnd P]
    rcases List.mem_map.1 hp with ⟨e, he, hep⟩
    rcases List.mem_filter.1 he with ⟨hel, hcond⟩
    rw [Bool.and_eq_true] at hcond
    rcases hcond with ⟨hsim, hP⟩
    refine List.mem_map.2 ⟨e, List.mem_filter.2 ⟨hel, ?_⟩, hep⟩
    rw [Bool.and_eq_true]
    refine ⟨?_, hP⟩
    simp only [decide_eq_true_eq] at hsim ⊢
    exact le_trans h12 hsim

theorem threshold_monotonicity_amended_witness :
    "B" ∈ (collectGroup (90 : ℚ) "FFFFFFFF3" [("FFFFFFFF0", "B")] []).1 :=
  (threshold_monotonicity_amended [] 98 90 94 "FFFFFFFF3" [("FFFFFFFF0", "B")] []
    (by norm_num) (by decide)).2 "B" (by with_unfolding_all decide)

/-- C6 counterexample.  Two iteration orders of the same input map yield
different sets of near-duplicate groups (not merely different
representatives): with threshold 96, order A,B,C groups all three files,
while order B,C,A groups only A and B and leaves C unique. -/
theorem clustering_order_dependent :
    ([("A", some "FFFFFFFF0"), ("B", some "FFFFFFFF1"), ("C", some "FFFFFFFF8")]
        : List (String × Option String)).Perm
      [("B", some "FFFFFFFF1"), ("C", some "FFFFFFFF8"), ("A", some "FFFFFFFF0")]
    ∧ find_duplicates_by_fingerprints
        [("A", some "FFFFFFFF0"), ("B", some "FFFFFFFF1"), ("C", some "FFFFFFFF8")] 96
        = [("A", ["A", "B", "C"])]
    ∧ find_duplicates_by_fingerprints
        [("B", some "FFFFFFFF1"), ("C", some "FFFFFFFF8"), ("A", some "FFFFFFFF0")] 96
        = [("B", ["B", "A"])]
    ∧ "C" ∈ groupMembers (find_duplicates_by_fingerprints
        [("A", some "FFFFFFFF0"), ("B", some "FFFFFFFF1"), ("C", some "FFFFFFFF8")] 96)
    ∧ "C" ∉ groupMembers (find_duplicates_by_fingerprints
        [("B", some "FFFFFFFF1"), ("C", some "FFFFFFFF8"), ("A", some "FFFFFFFF0")] 96) :=
  ⟨by decide, by with_unfolding_all decide, by with_unfolding_all decide,
    by with_unfolding_all decide, by with_unfolding_all decide⟩

/-- C6 amended.  The exact-duplicate phase is order-independent: for any
two iteration orders of the input, every fingerprint's file class is the
same up to order, and each exact-duplicate group of the one order
corresponds to a group of the other with the same member set.  The
near-duplicate phase is order-dependent (see the counterexample). -/
theorem exact_phase_order_independent (fps fps' : List (String × Option String))
    (hperm : fps.Perm fps') :
    (∀ f : String, (filesWithFingerprint fps f).Perm (filesWithFingerprint fps' f))
    ∧ (∀ g ∈ exact_duplicates fps,
        ∃ g' ∈ exact_duplicates fps', g.2.Perm g'.2) := by
  have hvalid : (validFingerprints fps).Perm (validFingerprints fps') :=
    hperm.filterMap _
  have hclass : ∀ f : String,
      (filesWithFingerprint fps f).Perm (filesWithFingerprint fps' f) := by
    intro f
    exact ((hvalid.filter _).map Prod.fst)
  refine ⟨hclass, ?_⟩
  intro g hg
  rcases List.mem_filter.1 hg with ⟨hgB, hlen⟩
  have hg2 : g.2 = filesWithFingerprint fps g.1 := (bucket_snd_char hgB).1
  have hlen' : 1 < g.2.length := by simpa using of_decide_eq_true hlen
  have hlen2 : 1 < (filesWithFingerprint fps' g.1).length := by
    rw [← (hclass g.1).length_eq, ← hg2]
    exact hlen'
  have hne : ((validFingerprints fps').filter (fun a => decide (a.2 = g.1))) ≠ [] := by
    intro hc
    rw [filesWithFingerprint, hc] at hlen2
    simp at hlen2
  have hkey : g.1 ∈ (fingerprint_to_files (validFingerprints fps')).map Prod.fst :=
    (mem_keys_bucketBy Prod.snd Prod.fst (validFingerprints fps') g.1).2 hne
  rcases List.mem_map.1 hkey with ⟨b, hbB, hbf⟩
  have hb2 : b.2 = filesWithFingerprint fps' g.1 := by
    have := (bucket_snd_char hbB).1
    rw [hbf] at this
    exact this
  refine ⟨b, List.mem_filter.2 ⟨hbB, ?_⟩, ?_⟩
  · rw [hb2]
    simpa using hlen2
  · rw [hg2, hb2]
    exact hclass g.1

theorem exact_phase_order_independent_witness :
    (filesWithFingerprint [("x", some "AB"), ("y", some "AB")] "AB").Perm
      (filesWithFingerprint [("y", some "AB"), ("x", some "AB")] "AB") :=
  (exact_phase_order_independent [("x", some "AB"), ("y", some "AB")]
    [("y", some "AB"), ("x", some "AB")] (by decide)).1 "AB"

set_option maxRecDepth 4000

example : compare_audio_fingerprints "FFFFFFFF0" "FFFFFFFF3" = 3400 / 36 := by
  with_unfolding_all decide
example : compare_audio_fingerprints "0FFFFFFFF" "FFFFFFFF" = 100 := by
  with_unfolding_all decide
example : compare_audio_fingerprints "ZZ" "ZZ" = 100 := by with_unfolding_all decide
example : pythonIntHex? "ZZ" = none := by decide
example : pythonIntHex? "0x_1F" = some 31 := by decide
example : pythonIntHex? " -ab " = some (-171) := by decide
